import Mathlib

/-!
Shallow embedding of the article_nom content-transformation pipeline
(src/lib.rs, src/models/html_cleaner.rs, src/models/news_article.rs).
Strings are modelled as `List Char` (one entry per Unicode scalar value,
exactly the units the `regex` crate matches on); the browser-automation
fetch and the html2md markdown conversion are external collaborators and
enter as parameters (`elements`, `render`).
-/

/-- Conversion from a string literal to the character-list model. -/
def toL (s : String) : List Char := s.toList

/-- Simple case-folding table backing the case-insensitive regex patterns of
html_cleaner.rs: a concrete lowercase pattern letter `p` also matches `c`
when `foldsTo p c`. It covers exactly the letters occurring in the source
patterns, including the one non-ASCII simple case folding relevant to them
(long s U+017F folds to s, as in the regex crate). -/
def foldsTo (p c : Char) : Bool :=
  if p = 'a' then c = 'A'
  else if p = 'c' then c = 'C'
  else if p = 'e' then c = 'E'
  else if p = 'g' then c = 'G'
  else if p = 'i' then c = 'I'
  else if p = 'm' then c = 'M'
  else if p = 'o' then c = 'O'
  else if p = 'p' then c = 'P'
  else if p = 'r' then c = 'R'
  else if p = 's' then (c = 'S' || c = 'ſ')
  else if p = 't' then c = 'T'
  else if p = 'u' then c = 'U'
  else false

/-- Case-insensitive match of input character `c` against pattern character `p`. -/
def ciEq (p c : Char) : Bool := c = p || foldsTo p c

/-- The pattern list is a case-insensitive prefix of the input list. -/
def ciPref : List Char → List Char → Bool
  | [], _ => true
  | _ :: _, [] => false
  | p :: ps, c :: cs => ciEq p c && ciPref ps cs

/-- The input list matches the pattern list case-insensitively, in full. -/
def ciMatches : List Char → List Char → Bool
  | [], [] => true
  | p :: ps, c :: cs => ciEq p c && ciMatches ps cs
  | _, _ => false

/-- The pattern list is a literal (case-sensitive) prefix of the input. -/
def litPref : List Char → List Char → Bool
  | [], _ => true
  | _ :: _, [] => false
  | p :: ps, c :: cs => p = c && litPref ps cs

/-- The character class matched by the regex escape for whitespace in the
source patterns (Unicode White_Space, as in the regex crate). -/
def rsWhitespace (c : Char) : Bool :=
  c = ' ' || c = '\t' || c = '\n' || c = '\r' || c = '\x0b' || c = '\x0c' ||
  c = '\u0085' || c = '\u00a0' || c = '\u1680' ||
  (0x2000 ≤ c.toNat && c.toNat ≤ 0x200a) ||
  c = '\u2028' || c = '\u2029' || c = '\u202f' || c = '\u205f' || c = '\u3000'

/-- Literal characters of the opening part of the script-block pattern. -/
def scriptOpen : List Char := ['<', 's', 'c', 'r', 'i', 'p', 't']

/-- Literal characters of the closing script tag in the script-block pattern. -/
def scriptClose : List Char := ['<', '/', 's', 'c', 'r', 'i', 'p', 't', '>']

/-- Literal characters of the closing anchor tag alternative. -/
def closeA : List Char := ['<', '/', 'a', '>']

/-- Number of characters from the start of the input up to and including the
first case-insensitive occurrence of the closing script tag; none when no
occurrence exists. This realises the lazy part of the script-block pattern,
whose dot matches any character including line breaks. -/
def closeDist : List Char → Option Nat
  | [] => none
  | c :: rest =>
    if ciPref scriptClose (c :: rest) then some 9
    else (closeDist rest).map (· + 1)

/-- Number of characters up to and including the first right angle bracket;
none when no such bracket exists. This realises the greedy bracket-free run
ending the single-tag patterns of html_cleaner.rs. -/
def gtDist : List Char → Option Nat
  | [] => none
  | c :: rest => if c = '>' then some 1 else (gtDist rest).map (· + 1)

/-- One leftmost-first scan of the script-block substitution of
HtmlCleaner::clean: at each position, either the script-block pattern
matches (the whole block through the nearest closing tag is deleted and
scanning resumes after it, realised by the skip counter) or the current
character is kept. -/
def scriptGo : Nat → List Char → List Char
  | _, [] => []
  | Nat.succ s, _ :: rest => scriptGo s rest
  | 0, c :: rest =>
    if ciPref scriptOpen (c :: rest) then
      match closeDist (rest.drop 6) with
      | some d => scriptGo (6 + d) rest
      | none => c :: scriptGo 0 rest
    else c :: scriptGo 0 rest

/-- replace_all with the script-block pattern of html_cleaner.rs
(case-insensitive, dot matching line breaks, lazy body). -/
def replaceAllScript (l : List Char) : List Char := scriptGo 0 l

/-- Length of a match of the attributed opening anchor tag alternative
starting at the head of the input: a left angle bracket, the letter a
(case-insensitive), one whitespace character, then everything through the
first right angle bracket. None when the pattern does not match here. -/
def aOpenLen : List Char → Option Nat
  | c1 :: c2 :: c3 :: rest =>
    if c1 = '<' && ciEq 'a' c2 && rsWhitespace c3 then (gtDist rest).map (· + 3)
    else none
  | _ => none

/-- One leftmost-first scan of the anchor-tag substitution of
HtmlCleaner::clean: tries the attributed opening-tag alternative first,
then the closing-tag alternative, else keeps the character. -/
def anchorGo : Nat → List Char → List Char
  | _, [] => []
  | Nat.succ s, _ :: rest => anchorGo s rest
  | 0, c :: rest =>
    match aOpenLen (c :: rest) with
    | some len => anchorGo (len - 1) rest
    | none =>
      if ciPref closeA (c :: rest) then anchorGo 3 rest
      else c :: anchorGo 0 rest

/-- replace_all with the anchor-tag pattern of html_cleaner.rs. -/
def replaceAllAnchor (l : List Char) : List Char := anchorGo 0 l

/-- Length of a match of the image tag pattern starting at the head of the
input, analogous to `aOpenLen`. -/
def imgOpenLen : List Char → Option Nat
  | c1 :: c2 :: c3 :: c4 :: c5 :: rest =>
    if c1 = '<' && ciEq 'i' c2 && ciEq 'm' c3 && ciEq 'g' c4 && rsWhitespace c5 then
      (gtDist rest).map (· + 5)
    else none
  | _ => none

/-- One leftmost-first scan of the image-tag substitution of HtmlCleaner::clean. -/
def imgGo : Nat → List Char → List Char
  | _, [] => []
  | Nat.succ s, _ :: rest => imgGo s rest
  | 0, c :: rest =>
    match imgOpenLen (c :: rest) with
    | some len => imgGo (len - 1) rest
    | none => c :: imgGo 0 rest

/-- replace_all with the image-tag pattern of html_cleaner.rs. -/
def replaceAllImg (l : List Char) : List Char := imgGo 0 l

/-- Length of a match of the source tag pattern starting at the head of the
input, analogous to `aOpenLen`. -/
def sourceOpenLen : List Char → Option Nat
  | c1 :: c2 :: c3 :: c4 :: c5 :: c6 :: c7 :: c8 :: rest =>
    if c1 = '<' && ciEq 's' c2 && ciEq 'o' c3 && ciEq 'u' c4 && ciEq 'r' c5 &&
        ciEq 'c' c6 && ciEq 'e' c7 && rsWhitespace c8 then
      (gtDist rest).map (· + 8)
    else none
  | _ => none

/-- One leftmost-first scan of the source-tag substitution of HtmlCleaner::clean. -/
def sourceGo : Nat → List Char → List Char
  | _, [] => []
  | Nat.succ s, _ :: rest => sourceGo s rest
  | 0, c :: rest =>
    match sourceOpenLen (c :: rest) with
    | some len => sourceGo (len - 1) rest
    | none => c :: sourceGo 0 rest

/-- replace_all with the source-tag pattern of html_cleaner.rs. -/
def replaceAllSource (l : List Char) : List Char := sourceGo 0 l

/-- CleanerConfig of html_cleaner.rs. -/
structure CleanerConfig where
  remove_script_tags : Bool
  remove_a_tags : Bool
  remove_img_tags : Bool
  remove_source_tags : Bool

/-- HtmlCleaner of html_cleaner.rs. -/
structure HtmlCleaner where
  remove_script_tags : Bool
  remove_a_tags : Bool
  remove_img_tags : Bool
  remove_source_tags : Bool

/-- HtmlCleaner::new, all flags disabled. -/
def HtmlCleaner.new : HtmlCleaner :=
  { remove_script_tags := false, remove_a_tags := false,
    remove_img_tags := false, remove_source_tags := false }

/-- HtmlCleaner::apply_config, copying every flag from the configuration. -/
def HtmlCleaner.apply_config (self : HtmlCleaner) (config : CleanerConfig) : HtmlCleaner :=
  { self with
    remove_script_tags := config.remove_script_tags,
    remove_a_tags := config.remove_a_tags,
    remove_img_tags := config.remove_img_tags,
    remove_source_tags := config.remove_source_tags }

/-- HtmlCleaner::clean of html_cleaner.rs: up to four substitution passes in
the fixed source order, each conditional on its flag. -/
def HtmlCleaner.clean (self : HtmlCleaner) (input : List Char) : List Char :=
  let t1 := if self.remove_script_tags then replaceAllScript input else input
  let t2 := if self.remove_a_tags then replaceAllAnchor t1 else t1
  let t3 := if self.remove_img_tags then replaceAllImg t2 else t2
  if self.remove_source_tags then replaceAllSource t3 else t3

/-- The script pass of HtmlCleaner::clean as a conditional step. -/
def scriptStep (b : Bool) (s : List Char) : List Char :=
  if b then replaceAllScript s else s

/-- The anchor pass of HtmlCleaner::clean as a conditional step. -/
def anchorStep (b : Bool) (s : List Char) : List Char :=
  if b then replaceAllAnchor s else s

/-- The image pass of HtmlCleaner::clean as a conditional step. -/
def imgStep (b : Bool) (s : List Char) : List Char :=
  if b then replaceAllImg s else s

/-- The source pass of HtmlCleaner::clean as a conditional step. -/
def sourceStep (b : Bool) (s : List Char) : List Char :=
  if b then replaceAllSource s else s

/-- NewsArticle of news_article.rs. -/
structure NewsArticle where
  url : List Char
  headline : List Char
deriving DecidableEq

/-- Shortest run of characters other than a line break, ending right before
the stopping character; none when the stopping character is not reached.
This realises the lazy dot-star of the link pattern of
extract_url_headline, whose dot does not match a line break. -/
def scanTo (stop : Char) : List Char → Option (List Char)
  | [] => none
  | c :: rest =>
    if c = stop then some []
    else if c = '\n' then none
    else (scanTo stop rest).map (c :: ·)

/-- Backtracking continuation of the link pattern after its opening square
bracket: lazily extends the bracketed text (never across a line break)
until a closing square bracket directly followed by an opening parenthesis
whose parenthesised part also closes; captures that parenthesised part. -/
def linkTail : List Char → Option (List Char)
  | [] => none
  | c :: rest =>
    if c = ']' then
      match rest with
      | '(' :: rest2 =>
        match scanTo ')' rest2 with
        | some b => some b
        | none => linkTail rest
      | _ => linkTail rest
    else if c = '\n' then none
    else linkTail rest

/-- Leftmost-first search with the link pattern of extract_url_headline,
returning the first capture group (the link target). -/
def findLink : List Char → Option (List Char)
  | [] => none
  | c :: rest =>
    if c = '[' then
      match linkTail rest with
      | some b => some b
      | none => findLink rest
    else findLink rest

/-- Literal characters opening the headline pattern (four hashes, space). -/
def hOpen : List Char := ['#', '#', '#', '#', ' ']

/-- Literal characters closing the headline pattern (space, four hashes). -/
def hClose : List Char := [' ', '#', '#', '#', '#']

/-- Lazy capture of the headline pattern after its opening marker: shortest
run of characters other than a line break, ending right before the closing
marker; none when the closing marker is not reached on this line. -/
def headTail : List Char → Option (List Char)
  | [] => none
  | c :: rest =>
    if litPref hClose (c :: rest) then some []
    else if c = '\n' then none
    else (headTail rest).map (c :: ·)

/-- Leftmost-first search with the headline pattern of extract_url_headline,
returning the first capture group (the headline text). -/
def findHeadline : List Char → Option (List Char)
  | [] => none
  | c :: rest =>
    if litPref hOpen (c :: rest) then
      match headTail (rest.drop 4) with
      | some b => some b
      | none => findHeadline rest
    else findHeadline rest

/-- The fixed base origin url_prefix of extract_url_headline. -/
def urlOrigin : List Char := toL "https://news.google.com"

/-- Byte slicing of a Rust string from byte index 1, as in the source
expression taking all but the first byte of the captured target: it panics
(modelled as none) when the string is empty (byte index out of bounds) or
when its first character occupies more than one byte in UTF-8 (slice not on
a character boundary); otherwise it drops the first character. -/
def sliceFrom1 : List Char → Option (List Char)
  | [] => none
  | c :: rest => if c.toNat < 128 then some rest else none

/-- extract_url_headline of lib.rs. The outer Option models panics: none is
a panic, some none is the Rust None (no record), some (some a) is Some(a).
Both regex searches run on the full text; only when both produce a capture
is the url built from the fixed origin and the target with its first byte
sliced off. -/
def extract_url_headline (text : List Char) : Option (Option NewsArticle) :=
  match findLink text, findHeadline text with
  | some url, some headline =>
    match sliceFrom1 url with
    | some u => some (some { url := urlOrigin ++ u, headline := headline })
    | none => none
  | _, _ => some none

/-- The separator literal pushed between articles by fold_articles. -/
def sepMark : List Char := toL "\n\nNEW ARTICLE: "

/-- fold_articles of lib.rs: a left fold starting from the empty string that
pushes the separator only when the accumulator is non-empty, then the
fragment. -/
def fold_articles (articles : List (List Char)) : List Char :=
  articles.foldl
    (fun acc text => (if acc.isEmpty then acc else acc ++ sepMark) ++ text) []

/-- clean_html of lib.rs: a filter_map over the elements whose closure always
returns some, cleaning each element with a cleaner configured from the
(per-element copied) configuration and converting to markdown via the
external html2md collaborator `render` when requested. -/
def clean_html (render : List Char → List Char) (elements : List (List Char))
    (html_cleaner_config : CleanerConfig) (to_markdown : Bool) : List (List Char) :=
  elements.filterMap (fun html =>
    let html_cleaner := HtmlCleaner.new.apply_config html_cleaner_config
    let cleaned := html_cleaner.clean html
    some (if to_markdown then render cleaned else cleaned))

/-- gather_article of lib.rs after the fetch boundary: the fetched elements
are cleaned with the caller-supplied configuration, converted to markdown,
and folded. The fetch itself is the external automation collaborator, so
its result `elements` is a parameter. -/
def gather_article (render : List Char → List Char) (elements : List (List Char))
    (html_cleaner_config : CleanerConfig) : List Char :=
  fold_articles (clean_html render elements html_cleaner_config true)

/-- The fixed configuration literal of gather_google_articles. -/
def googleConfig : CleanerConfig :=
  { remove_script_tags := true, remove_a_tags := false,
    remove_img_tags := true, remove_source_tags := false }

/-- The extraction loop of gather_google_articles: pushes every successful
extraction in order; a panic in extract_url_headline (outer none)
propagates and fails the whole computation. -/
def collectArticles : List (List Char) → Option (List NewsArticle)
  | [] => some []
  | t :: rest =>
    match extract_url_headline t with
    | none => none
    | some none => collectArticles rest
    | some (some a) => (collectArticles rest).map (fun l => a :: l)

/-- gather_google_articles of lib.rs after the fetch boundary: the fetched
elements are cleaned with the fixed configuration, converted to markdown,
and run through the extraction loop. -/
def gather_google_articles (render : List Char → List Char)
    (elements : List (List Char)) : Option (List NewsArticle) :=
  collectArticles (clean_html render elements googleConfig true)

/-- Separator-prefixed concatenation of fragments: every fragment is
preceded by the separator. Reference definition for the folding claims. -/
def sepTail (l : List (List Char)) : List Char :=
  l.foldr (fun x r => sepMark ++ x ++ r) []

/-- Modelled from the spec words for folding: fragments joined in order with
the separator between every pair of consecutive fragments, none leading,
none trailing. Compared against `fold_articles`. -/
def sepJoin : List (List Char) → List Char
  | [] => []
  | x :: xs => x ++ sepTail xs

/-- The per-element transformation performed by clean_html: sanitize with the
configured cleaner, then convert with the external renderer when requested. -/
def elemClean (render : List Char → List Char) (cfg : CleanerConfig) (b : Bool)
    (html : List Char) : List Char :=
  if b then render ((HtmlCleaner.new.apply_config cfg).clean html)
  else (HtmlCleaner.new.apply_config cfg).clean html

theorem clean_html_eq_map (render : List Char → List Char)
    (elements : List (List Char)) (cfg : CleanerConfig) (b : Bool) :
    clean_html render elements cfg b = elements.map (elemClean render cfg b) := by
  induction elements with
  | nil => rfl
  | cons h t ih =>
    simp only [clean_html, List.filterMap_cons, List.map_cons] at *
    rw [ih]
    rfl


theorem foldl_step_of_nonempty (l : List (List Char)) :
    ∀ acc : List Char, acc ≠ [] →
      List.foldl (fun acc text => (if acc.isEmpty then acc else acc ++ sepMark) ++ text) acc l
        = acc ++ sepTail l := by
  induction l with
  | nil => intro acc _; simp [sepTail]
  | cons x xs ih =>
    intro acc hacc
    have h1 : acc.isEmpty = false := by simpa using hacc
    have h2 : (acc ++ sepMark) ++ x ≠ [] := by
      simp [sepMark, toL]
    simp only [List.foldl_cons, h1, Bool.false_eq_true, if_false]
    rw [ih _ h2]
    simp [sepTail, List.append_assoc]

theorem fold_articles_foldl_eq :
    ∀ l : List (List Char),
      fold_articles l = sepJoin (l.dropWhile (fun x => x.isEmpty)) := by
  intro l
  cases l with
  | nil => rfl
  | cons x xs =>
    by_cases hx : x = []
    · subst hx
      show List.foldl _ ([] ++ []) xs = _
      have : fold_articles xs = sepJoin (xs.dropWhile (fun x => x.isEmpty)) :=
        fold_articles_foldl_eq xs
      simpa [fold_articles, List.dropWhile] using this
    · have h1 : x.isEmpty = false := by simpa using hx
      show List.foldl _ _ (x :: xs) = _
      simp only [List.foldl_cons, List.isEmpty_nil, if_true, List.nil_append]
      rw [foldl_step_of_nonempty xs x hx]
      simp [List.dropWhile, h1, sepJoin]

/-- Claim C1 (code bug evidence): extraction does not return normally on
every input. Evaluating the embedded extract_url_headline at a text whose
first link captures an empty target, and at one whose first link captures a
target starting with a multi-byte character, reaches the panic outcome
(outer none) of the byte slicing of the captured target, although both
regex searches succeed. -/
theorem extract_url_headline_panics_on_degenerate_target :
    extract_url_headline (toL "[]()\n#### T ####") = none ∧
    extract_url_headline (toL "[x](é)\n#### T ####") = none := by
  constructor <;> decide

/-- Claim C2 (counterexample): with an empty first fragment the separator is
not inserted before the second fragment, so the claimed separator-between-
every-pair rule fails. -/
theorem fold_articles_empty_first_fragment :
    fold_articles [[], toL "b"] = toL "b" ∧
    fold_articles [[], toL "b"] ≠ toL "\n\nNEW ARTICLE: b" := by
  constructor <;> decide

/-- Claim C2 (amended): fold_articles returns the separator-joined
concatenation of the fragments that remain after dropping the leading
empty fragments: the separator is inserted between every remaining pair of
consecutive fragments (even empty ones), none leading and none trailing,
and the empty sequence yields the empty string; the three examples of the
specification hold. -/
theorem fold_articles_joins_after_leading_empties :
    fold_articles [] = [] ∧
    fold_articles [toL "a"] = toL "a" ∧
    fold_articles [toL "a", toL "b"] = toL "a\n\nNEW ARTICLE: b" ∧
    (∀ l : List (List Char),
      fold_articles l = sepJoin (l.dropWhile (fun x => x.isEmpty))) := by
  refine ⟨by decide, by decide, by decide, ?_⟩
  exact fold_articles_foldl_eq

/-- Claim C3 (counterexample): a produced NewsArticle can have an empty
headline, because the headline pattern can capture the empty string
between its two markers. -/
theorem extract_emits_empty_headline :
    extract_url_headline (toL "[x](./a)\n####  ####") =
      some (some { url := toL "https://news.google.com/a", headline := [] }) := by
  decide

/-- Claim C3 (amended): every NewsArticle actually returned by
extract_url_headline has a non-empty url, built from the fixed base origin;
its headline is the captured heading text, which may be empty. -/
theorem extract_url_nonempty (t : List Char) (a : NewsArticle)
    (h : extract_url_headline t = some (some a)) :
    a.url ≠ [] ∧ ∃ u, a.url = urlOrigin ++ u := by
  unfold extract_url_headline at h
  cases hl : findLink t with
  | none => rw [hl] at h; cases hh : findHeadline t <;> simp [hh] at h
  | some url =>
    rw [hl] at h
    cases hh : findHeadline t with
    | none => simp [hh] at h
    | some hd =>
      rw [hh] at h
      cases hs : sliceFrom1 url with
      | none => simp [hs] at h
      | some u =>
        simp only [hs] at h
        obtain rfl : a = { url := urlOrigin ++ u, headline := hd } := by
          injection h with h1
          injection h1 with h2
          exact h2.symm
        refine ⟨by simp [urlOrigin, toL], u, rfl⟩

theorem extract_url_nonempty_witness :
    ({ url := toL "https://news.google.com/p", headline := toL "T" } : NewsArticle).url ≠ [] ∧
    ∃ u, ({ url := toL "https://news.google.com/p", headline := toL "T" } : NewsArticle).url
      = urlOrigin ++ u :=
  extract_url_nonempty (toL "[x](./p)\n#### T ####") _ (by decide)

/-- Claim C5 (counterexample): both the first link and the first heading are
found, yet no record is returned — the byte slicing of the empty captured
target panics instead. -/
theorem extract_match_without_record :
    findLink (toL "[]()\n#### A ####") = some [] ∧
    findHeadline (toL "[]()\n#### A ####") = some (toL "A") ∧
    extract_url_headline (toL "[]()\n#### A ####") = none := by
  refine ⟨by decide, by decide, by decide⟩

/-- Claim C5 (amended): the specification example holds; when either pattern
fails to match, no record is emitted; when both match and slicing the first
byte off the captured target succeeds (the target is non-empty and starts
with a one-byte character), the record holds the fixed origin with the
sliced target appended as url and the captured heading as headline; and
every returned record arises this way. -/
theorem extract_characterization :
    extract_url_headline (toL "[x](./path?query)\n#### Title ####") =
      some (some { url := toL "https://news.google.com/path?query",
                   headline := toL "Title" }) ∧
    (∀ t, findLink t = none → extract_url_headline t = some none) ∧
    (∀ t, findHeadline t = none → extract_url_headline t = some none) ∧
    (∀ t url h u, findLink t = some url → findHeadline t = some h →
      sliceFrom1 url = some u →
      extract_url_headline t = some (some { url := urlOrigin ++ u, headline := h })) ∧
    (∀ t a, extract_url_headline t = some (some a) →
      ∃ url h u, findLink t = some url ∧ findHeadline t = some h ∧
        sliceFrom1 url = some u ∧ a = { url := urlOrigin ++ u, headline := h }) := by
  refine ⟨by decide, ?_, ?_, ?_, ?_⟩
  · intro t h
    cases hh : findHeadline t <;> simp [extract_url_headline, h, hh]
  · intro t h
    cases hl : findLink t <;> simp [extract_url_headline, h, hl]
  · intro t url h u h1 h2 h3
    simp [extract_url_headline, h1, h2, h3]
  · intro t a h
    unfold extract_url_headline at h
    cases hl : findLink t with
    | none => rw [hl] at h; cases hh : findHeadline t <;> simp [hh] at h
    | some url =>
      rw [hl] at h
      cases hh : findHeadline t with
      | none => simp [hh] at h
      | some hd =>
        rw [hh] at h
        cases hs : sliceFrom1 url with
        | none => simp [hs] at h
        | some u =>
          simp only [hs, Option.some.injEq] at h
          exact ⟨url, hd, u, rfl, rfl, hs, h.symm⟩

theorem extract_characterization_witness :
    extract_url_headline (toL "plain text") = some none :=
  extract_characterization.2.1 (toL "plain text") (by decide)

/-- Claim C10: clean_html transforms each element independently and in
order: the output list is the map of the per-element sanitize-and-convert
transformation over the input list, and in particular has the same length
(no element is ever dropped, even when the transformation yields the empty
string). -/
theorem clean_html_maps_each_element (render : List Char → List Char)
    (elements : List (List Char)) (cfg : CleanerConfig) (b : Bool) :
    clean_html render elements cfg b = elements.map (elemClean render cfg b) ∧
    (clean_html render elements cfg b).length = elements.length := by
  refine ⟨clean_html_eq_map render elements cfg b, ?_⟩
  rw [clean_html_eq_map render elements cfg b]
  exact List.length_map elements _

/-- Claim C4 (counterexample): gather_article does not apply the fixed
policy that keeps anchor tags. Invoked with the all-enabled caller
configuration on a fragment holding an attributed anchor tag (identity
renderer), it strips the anchor markup, while sanitizing the same fragment
with the claimed fixed policy leaves it unchanged. -/
theorem gather_article_policy_not_fixed :
    gather_article (fun s => s) [toL "<a b>x</a>"]
      { remove_script_tags := true, remove_a_tags := true,
        remove_img_tags := true, remove_source_tags := true } = toL "x" ∧
    gather_article (fun s => s) [toL "<a b>x</a>"] googleConfig = toL "<a b>x</a>" ∧
    toL "x" ≠ toL "<a b>x</a>" := by
  refine ⟨by decide, by decide, by decide⟩

/-- Claim C4 (amended): in single-document mode every fetched fragment is
sanitized with the caller-supplied configuration (passed through unchanged
to the cleaner), converted by the renderer, and folded; no fixed policy is
substituted. -/
theorem gather_article_uses_caller_policy (render : List Char → List Char)
    (elements : List (List Char)) (cfg : CleanerConfig) :
    gather_article render elements cfg =
      fold_articles (elements.map
        (fun h => render ((HtmlCleaner.new.apply_config cfg).clean h))) := by
  unfold gather_article
  rw [clean_html_eq_map]
  rfl

theorem collectArticles_of_no_panic :
    ∀ ts : List (List Char), (∀ t ∈ ts, extract_url_headline t ≠ none) →
      collectArticles ts =
        some (ts.filterMap (fun t => (extract_url_headline t).join)) := by
  intro ts h
  induction ts with
  | nil => rfl
  | cons t rest ih =>
    have ht := h t (by simp)
    have hr : ∀ x ∈ rest, extract_url_headline x ≠ none :=
      fun x hx => h x (by simp [hx])
    cases he : extract_url_headline t with
    | none => exact absurd he ht
    | some r =>
      cases r with
      | none => simp [collectArticles, he, ih hr, List.filterMap_cons, Option.join]
      | some a => simp [collectArticles, he, ih hr, List.filterMap_cons, Option.join]

/-- Claim C6 (counterexample): a single fragment can fail the whole
multi-article operation: a fragment whose converted text contains both a
link with an empty target and a heading makes the extraction loop panic
(outer none), instead of being skipped. -/
theorem gather_google_articles_fragment_failure :
    gather_google_articles (fun s => s) [toL "[]()\n#### B ####"] = none := by
  decide

/-- Claim C6 (amended): provided no converted fragment triggers the
target-slicing panic, multi-article mode returns exactly the successful
extractions, one per fragment with a valid link-and-heading pair, in the
relative order of their source fragments; fragments without an extractable
pair contribute nothing. -/
theorem gather_google_articles_collects_in_order (render : List Char → List Char)
    (elements : List (List Char))
    (h : ∀ t ∈ clean_html render elements googleConfig true,
      extract_url_headline t ≠ none) :
    gather_google_articles render elements =
      some ((clean_html render elements googleConfig true).filterMap
        (fun t => (extract_url_headline t).join)) := by
  unfold gather_google_articles
  exact collectArticles_of_no_panic _ h

theorem gather_google_articles_collects_in_order_witness :
    gather_google_articles (fun s => s)
        [toL "[x](./p)\n#### T ####", toL "no structure here"] =
      some [{ url := toL "https://news.google.com/p", headline := toL "T" }] :=
  (gather_google_articles_collects_in_order (fun s => s)
    [toL "[x](./p)\n#### T ####", toL "no structure here"] (by decide)).trans
    (by decide)

/-- Claim C7: a disabled flag makes the corresponding substitution pass a
no-op — cleaning with that flag off equals running only the remaining
passes, in their fixed order — and with every flag disabled clean is the
identity function. -/
theorem clean_disabled_flags_are_skipped :
    (∀ s, (HtmlCleaner.new.apply_config
      { remove_script_tags := false, remove_a_tags := false,
        remove_img_tags := false, remove_source_tags := false }).clean s = s) ∧
    (∀ cfg s, cfg.remove_script_tags = false →
      (HtmlCleaner.new.apply_config cfg).clean s =
        sourceStep cfg.remove_source_tags (imgStep cfg.remove_img_tags
          (anchorStep cfg.remove_a_tags s))) ∧
    (∀ cfg s, cfg.remove_a_tags = false →
      (HtmlCleaner.new.apply_config cfg).clean s =
        sourceStep cfg.remove_source_tags (imgStep cfg.remove_img_tags
          (scriptStep cfg.remove_script_tags s))) ∧
    (∀ cfg s, cfg.remove_img_tags = false →
      (HtmlCleaner.new.apply_config cfg).clean s =
        sourceStep cfg.remove_source_tags (anchorStep cfg.remove_a_tags
          (scriptStep cfg.remove_script_tags s))) ∧
    (∀ cfg s, cfg.remove_source_tags = false →
      (HtmlCleaner.new.apply_config cfg).clean s =
        imgStep cfg.remove_img_tags (anchorStep cfg.remove_a_tags
          (scriptStep cfg.remove_script_tags s))) := by
  refine ⟨fun s => rfl, ?_, ?_, ?_, ?_⟩ <;>
    · intro cfg s h
      cases cfg
      simp only at h
      subst h
      simp [HtmlCleaner.clean, HtmlCleaner.apply_config, HtmlCleaner.new,
        scriptStep, anchorStep, imgStep, sourceStep]

theorem clean_disabled_flags_are_skipped_witness :
    (HtmlCleaner.new.apply_config
      { remove_script_tags := false, remove_a_tags := true,
        remove_img_tags := true, remove_source_tags := true }).clean
      (toL "<script>x</script>") = toL "<script>x</script>" :=
  (clean_disabled_flags_are_skipped.2.1
    { remove_script_tags := false, remove_a_tags := true,
      remove_img_tags := true, remove_source_tags := true }
    (toL "<script>x</script>") rfl).trans (by decide)

theorem foldsTo_lt (c : Char) : foldsTo '<' c = false := rfl

theorem ciEq_lt_false {c : Char} (hc : c ≠ '<') : ciEq '<' c = false := by
  simp [ciEq, foldsTo_lt, hc]

theorem ciPref_head_false {p : Char} (ps : List Char) {c : Char} (l : List Char)
    (h : ciEq p c = false) : ciPref (p :: ps) (c :: l) = false := by
  simp [ciPref, h]

theorem ciPref_of_ciMatches : ∀ {p l : List Char}, ciMatches p l = true →
    ∀ t, ciPref p (l ++ t) = true := by
  intro p
  induction p with
  | nil => intro l h t; rfl
  | cons p ps ih =>
    intro l h t
    cases l with
    | nil => simp [ciMatches] at h
    | cons c cs =>
      simp only [ciMatches, Bool.and_eq_true] at h
      simp [ciPref, h.1, ih h.2 t]

theorem ciMatches_length : ∀ {p l : List Char}, ciMatches p l = true →
    l.length = p.length := by
  intro p
  induction p with
  | nil =>
    intro l h
    cases l with
    | nil => rfl
    | cons c cs => simp [ciMatches] at h
  | cons p ps ih =>
    intro l h
    cases l with
    | nil => simp [ciMatches] at h
    | cons c cs =>
      simp only [ciMatches, Bool.and_eq_true] at h
      simp [ih h.2]

theorem scriptGo_skip : ∀ (l : List Char) (n : Nat),
    scriptGo n l = scriptGo 0 (l.drop n) := by
  intro l
  induction l with
  | nil => intro n; cases n <;> rfl
  | cons c rest ih =>
    intro n
    cases n with
    | zero => rfl
    | succ s => rw [List.drop_succ_cons, show scriptGo (s + 1) (c :: rest) = scriptGo s rest from rfl, ih s]

theorem scriptGo_no_lt : ∀ (pre rest : List Char), (∀ x ∈ pre, x ≠ '<') →
    scriptGo 0 (pre ++ rest) = pre ++ scriptGo 0 rest := by
  intro pre
  induction pre with
  | nil => intro rest _; rfl
  | cons c p ih =>
    intro rest h
    have hc : c ≠ '<' := h c (List.mem_cons_self c p)
    have hcp : ciPref scriptOpen (c :: (p ++ rest)) = false := by
      simp only [scriptOpen]
      exact ciPref_head_false _ _ (ciEq_lt_false hc)
    show scriptGo 0 (c :: (p ++ rest)) = c :: (p ++ scriptGo 0 rest)
    rw [show scriptGo 0 (c :: (p ++ rest)) = c :: scriptGo 0 (p ++ rest) from by
      simp [scriptGo, hcp]]
    rw [ih rest (fun x hx => h x (List.mem_cons_of_mem c hx))]

theorem closeDist_at : ∀ (mid cl post : List Char), (∀ x ∈ mid, x ≠ '<') →
    ciMatches scriptClose cl = true →
    closeDist (mid ++ (cl ++ post)) = some (mid.length + 9) := by
  intro mid
  induction mid with
  | nil =>
    intro cl post _ hcl
    cases cl with
    | nil => simp [ciMatches, scriptClose] at hcl
    | cons a as =>
      have hp : ciPref scriptClose (a :: (as ++ post)) = true := by
        have := ciPref_of_ciMatches hcl post
        simpa [List.cons_append] using this
      simp [closeDist, hp]
  | cons c m ih =>
    intro cl post h hcl
    have hc : c ≠ '<' := h c (List.mem_cons_self c m)
    have hcp : ciPref scriptClose (c :: (m ++ (cl ++ post))) = false := by
      simp only [scriptClose]
      exact ciPref_head_false _ _ (ciEq_lt_false hc)
    have ihm := ih cl post (fun x hx => h x (List.mem_cons_of_mem c hx)) hcl
    show closeDist (c :: (m ++ (cl ++ post))) = some ((c :: m).length + 9)
    simp [closeDist, hcp, ihm]

/-- Claim C8: when the script flag is enabled, the whole block from a
case-insensitive opening script tag through the nearest following closing
script tag is deleted, including multi-line enclosed content (the
characters between the two tags are unconstrained except for containing no
left angle bracket, so they may span line breaks), and scanning continues
after the block; moreover the script pass runs first, before the anchor,
image and source passes, in the fixed source order. -/
theorem clean_script_blocks_removed_first :
    (∀ pre o mid cl post : List Char,
      ciMatches scriptOpen o = true → ciMatches scriptClose cl = true →
      (∀ x ∈ pre, x ≠ '<') → (∀ x ∈ mid, x ≠ '<') →
      replaceAllScript (pre ++ (o ++ (mid ++ (cl ++ post)))) =
        pre ++ replaceAllScript post) ∧
    (∀ cfg s, (HtmlCleaner.new.apply_config cfg).clean s =
      sourceStep cfg.remove_source_tags (imgStep cfg.remove_img_tags
        (anchorStep cfg.remove_a_tags (scriptStep cfg.remove_script_tags s)))) := by
  constructor
  · intro pre o mid cl post ho hcl hpre hmid
    unfold replaceAllScript
    rw [scriptGo_no_lt pre _ hpre]
    congr 1
    have hlo : o.length = 7 := ciMatches_length ho
    have hlc : cl.length = 9 := ciMatches_length hcl
    cases o with
    | nil => simp at hlo
    | cons o1 o2 =>
      have hl2 : o2.length = 6 := by simpa using hlo
      have hp : ciPref scriptOpen (o1 :: (o2 ++ (mid ++ (cl ++ post)))) = true := by
        have := ciPref_of_ciMatches ho (mid ++ (cl ++ post))
        simpa [List.cons_append] using this
      have hdrop : (o2 ++ (mid ++ (cl ++ post))).drop 6 = mid ++ (cl ++ post) :=
        List.drop_left' hl2
      have hcd : closeDist ((o2 ++ (mid ++ (cl ++ post))).drop 6) =
          some (mid.length + 9) := by
        rw [hdrop]; exact closeDist_at mid cl post hmid hcl
      show scriptGo 0 (o1 :: (o2 ++ (mid ++ (cl ++ post)))) = scriptGo 0 post
      rw [show scriptGo 0 (o1 :: (o2 ++ (mid ++ (cl ++ post)))) =
          scriptGo (6 + (mid.length + 9)) (o2 ++ (mid ++ (cl ++ post))) from by
        simp [scriptGo, hp, hcd]]
      rw [scriptGo_skip]
      congr 1
      rw [show 6 + (mid.length + 9) = o2.length + (mid.length + cl.length) from by
        rw [hl2, hlc]]
      rw [← List.drop_drop, List.drop_left, ← List.drop_drop, List.drop_left]
      exact List.drop_left cl post
  · intro cfg s; rfl

theorem clean_script_blocks_removed_first_witness :
    replaceAllScript (toL "ab" ++ (toL "<SCRIPT" ++ (toL " x\ny" ++
        (toL "</Script>" ++ toL "z")))) = toL "ab" ++ replaceAllScript (toL "z") :=
  clean_script_blocks_removed_first.1 (toL "ab") (toL "<SCRIPT") (toL " x\ny")
    (toL "</Script>") (toL "z") (by decide) (by decide) (by decide) (by decide)

theorem anchorGo_skip : ∀ (l : List Char) (n : Nat),
    anchorGo n l = anchorGo 0 (l.drop n) := by
  intro l
  induction l with
  | nil => intro n; cases n <;> rfl
  | cons c rest ih =>
    intro n
    cases n with
    | zero => rfl
    | succ s => rw [List.drop_succ_cons, show anchorGo (s + 1) (c :: rest) = anchorGo s rest from rfl, ih s]

theorem aOpenLen_ne_lt {c : Char} (l : List Char) (hc : c ≠ '<') :
    aOpenLen (c :: l) = none := by
  cases l with
  | nil => rfl
  | cons c2 l2 =>
    cases l2 with
    | nil => rfl
    | cons c3 l3 => simp [aOpenLen, hc]

theorem anchorGo_no_lt : ∀ (pre rest : List Char), (∀ x ∈ pre, x ≠ '<') →
    anchorGo 0 (pre ++ rest) = pre ++ anchorGo 0 rest := by
  intro pre
  induction pre with
  | nil => intro rest _; rfl
  | cons c p ih =>
    intro rest h
    have hc : c ≠ '<' := h c (List.mem_cons_self c p)
    have h1 : aOpenLen (c :: (p ++ rest)) = none := aOpenLen_ne_lt _ hc
    have h2 : ciPref closeA (c :: (p ++ rest)) = false := by
      simp only [closeA]
      exact ciPref_head_false _ _ (ciEq_lt_false hc)
    show anchorGo 0 (c :: (p ++ rest)) = c :: (p ++ anchorGo 0 rest)
    rw [show anchorGo 0 (c :: (p ++ rest)) = c :: anchorGo 0 (p ++ rest) from by
      simp [anchorGo, h1, h2]]
    rw [ih rest (fun x hx => h x (List.mem_cons_of_mem c hx))]

theorem gtDist_at : ∀ (attrs rest : List Char), (∀ x ∈ attrs, x ≠ '>') →
    gtDist (attrs ++ '>' :: rest) = some (attrs.length + 1) := by
  intro attrs
  induction attrs with
  | nil => intro rest _; simp [gtDist]
  | cons c as ih =>
    intro rest h
    have hc : c ≠ '>' := h c (List.mem_cons_self c as)
    have ihm := ih rest (fun x hx => h x (List.mem_cons_of_mem c hx))
    show gtDist (c :: (as ++ '>' :: rest)) = some ((c :: as).length + 1)
    simp [gtDist, hc, ihm]

theorem ciEq_a_cases {a : Char} (h : ciEq 'a' a = true) : a = 'a' ∨ a = 'A' := by
  simpa [ciEq, foldsTo] using h

theorem ciEq_slash_of_a {a : Char} (h : ciEq 'a' a = true) : ciEq '/' a = false := by
  rcases ciEq_a_cases h with rfl | rfl <;> rfl

theorem ne_lt_of_a {a : Char} (h : ciEq 'a' a = true) : a ≠ '<' := by
  rcases ciEq_a_cases h with rfl | rfl <;> decide

theorem anchorGo_close {a2 : Char} (post : List Char) (ha2 : ciEq 'a' a2 = true) :
    anchorGo 0 ('<' :: '/' :: a2 :: '>' :: post) = anchorGo 0 post := by
  have h1 : aOpenLen ('<' :: '/' :: a2 :: '>' :: post) = none := by
    simp [aOpenLen, show ciEq 'a' '/' = false from rfl]
  have h2 : ciPref closeA ('<' :: '/' :: a2 :: '>' :: post) = true := by
    simp [ciPref, closeA, ha2, show ciEq '<' '<' = true from rfl,
      show ciEq '/' '/' = true from rfl, show ciEq '>' '>' = true from rfl]
  rw [show anchorGo 0 ('<' :: '/' :: a2 :: '>' :: post) =
      anchorGo 3 ('/' :: a2 :: '>' :: post) from by simp [anchorGo, h1, h2]]
  rw [anchorGo_skip]
  rfl

/-- Claim C9: the anchor pass removes an opening anchor tag only when at
least one whitespace character follows the tag name (an attributed tag,
running through the first right angle bracket), removes every closing
anchor tag, and leaves a bare attribute-less opening anchor tag in place
even though its matching closing tag is deleted; the enclosed text always
survives. -/
theorem clean_anchor_tags_selective :
    (∀ (pre : List Char) (a w : Char) (attrs inner : List Char) (a2 : Char)
        (post : List Char),
      (∀ x ∈ pre, x ≠ '<') → ciEq 'a' a = true → rsWhitespace w = true →
      (∀ x ∈ attrs, x ≠ '>') → (∀ x ∈ inner, x ≠ '<') → ciEq 'a' a2 = true →
      replaceAllAnchor (pre ++ '<' :: a :: w ::
          (attrs ++ '>' :: (inner ++ '<' :: '/' :: a2 :: '>' :: post))) =
        pre ++ (inner ++ replaceAllAnchor post)) ∧
    (∀ (pre : List Char) (a : Char) (inner : List Char) (a2 : Char)
        (post : List Char),
      (∀ x ∈ pre, x ≠ '<') → ciEq 'a' a = true →
      (∀ x ∈ inner, x ≠ '<') → ciEq 'a' a2 = true →
      replaceAllAnchor (pre ++ '<' :: a :: '>' ::
          (inner ++ '<' :: '/' :: a2 :: '>' :: post)) =
        pre ++ '<' :: a :: '>' :: (inner ++ replaceAllAnchor post)) := by
  constructor
  · intro pre a w attrs inner a2 post hpre ha hw hattrs hinner ha2
    unfold replaceAllAnchor
    rw [anchorGo_no_lt pre _ hpre]
    congr 1
    have hg : gtDist (attrs ++ '>' :: (inner ++ '<' :: '/' :: a2 :: '>' :: post)) =
        some (attrs.length + 1) := gtDist_at attrs _ hattrs
    have hopen : aOpenLen ('<' :: a :: w ::
        (attrs ++ '>' :: (inner ++ '<' :: '/' :: a2 :: '>' :: post))) =
        some (attrs.length + 1 + 3) := by
      simp [aOpenLen, ha, hw, hg]
    rw [show anchorGo 0 ('<' :: a :: w ::
        (attrs ++ '>' :: (inner ++ '<' :: '/' :: a2 :: '>' :: post))) =
        anchorGo (attrs.length + 1 + 3 - 1) (a :: w ::
          (attrs ++ '>' :: (inner ++ '<' :: '/' :: a2 :: '>' :: post))) from by
      simp [anchorGo, hopen]]
    rw [anchorGo_skip]
    rw [show attrs.length + 1 + 3 - 1 = attrs.length + 1 + 1 + 1 from by omega]
    rw [List.drop_succ_cons, List.drop_succ_cons]
    rw [show attrs.length + 1 = attrs.length + 1 from rfl, ← List.drop_drop,
      List.drop_left]
    rw [List.drop_succ_cons, List.drop_zero]
    rw [anchorGo_no_lt inner _ hinner]
    rw [anchorGo_close post ha2]
  · intro pre a inner a2 post hpre ha hinner ha2
    unfold replaceAllAnchor
    rw [anchorGo_no_lt pre _ hpre]
    congr 1
    have hne : a ≠ '<' := ne_lt_of_a ha
    have h1 : aOpenLen ('<' :: a :: '>' ::
        (inner ++ '<' :: '/' :: a2 :: '>' :: post)) = none := by
      simp [aOpenLen, show rsWhitespace '>' = false from rfl]
    have h2 : ciPref closeA ('<' :: a :: '>' ::
        (inner ++ '<' :: '/' :: a2 :: '>' :: post)) = false := by
      simp [ciPref, closeA, ciEq_slash_of_a ha]
    rw [show anchorGo 0 ('<' :: a :: '>' ::
        (inner ++ '<' :: '/' :: a2 :: '>' :: post)) =
        '<' :: anchorGo 0 (a :: '>' ::
          (inner ++ '<' :: '/' :: a2 :: '>' :: post)) from by
      simp [anchorGo, h1, h2]]
    have h3 : aOpenLen (a :: '>' ::
        (inner ++ '<' :: '/' :: a2 :: '>' :: post)) = none :=
      aOpenLen_ne_lt _ hne
    have h4 : ciPref closeA (a :: '>' ::
        (inner ++ '<' :: '/' :: a2 :: '>' :: post)) = false := by
      simp only [closeA]
      exact ciPref_head_false _ _ (ciEq_lt_false hne)
    rw [show anchorGo 0 (a :: '>' ::
        (inner ++ '<' :: '/' :: a2 :: '>' :: post)) =
        a :: anchorGo 0 ('>' ::
          (inner ++ '<' :: '/' :: a2 :: '>' :: post)) from by
      simp [anchorGo, h3, h4]]
    have h5 : aOpenLen ('>' ::
        (inner ++ '<' :: '/' :: a2 :: '>' :: post)) = none :=
      aOpenLen_ne_lt _ (by decide)
    have h6 : ciPref closeA ('>' ::
        (inner ++ '<' :: '/' :: a2 :: '>' :: post)) = false := by
      simp only [closeA]
      exact ciPref_head_false _ _ (ciEq_lt_false (by decide))
    rw [show anchorGo 0 ('>' ::
        (inner ++ '<' :: '/' :: a2 :: '>' :: post)) =
        '>' :: anchorGo 0 (inner ++ '<' :: '/' :: a2 :: '>' :: post) from by
      simp [anchorGo, h5, h6]]
    rw [anchorGo_no_lt inner _ hinner]
    rw [anchorGo_close post ha2]

theorem clean_anchor_tags_selective_witness :
    replaceAllAnchor (toL "p" ++ '<' :: 'a' :: ' ' ::
        (toL "href=x" ++ '>' :: (toL "Text" ++ '<' :: '/' :: 'a' :: '>' :: toL "q"))) =
      toL "p" ++ (toL "Text" ++ replaceAllAnchor (toL "q")) :=
  clean_anchor_tags_selective.1 (toL "p") 'a' ' ' (toL "href=x") (toL "Text") 'a'
    (toL "q") (by decide) (by decide) (by decide) (by decide) (by decide) (by decide)
